import Mathlib

/-!
# A verification development for `delta_debugging_base.py`

This file shallowly embeds the core of the delta-debugging fact-file
engine: the tuple codec (`printSouffleTuple` / `parseSouffleTuple`), the
diff reader, the relation materializer (`applyDiffToInput`) and the
membership check (`tuplesInRelation`).

Modelling conventions:
* Python strings are modelled as `List Char` (`Str`); the relevant string
  operations (`strip`, `rstrip`, `split`, `join`, `endswith`) are defined
  below with Python's semantics on the ASCII data that fact files hold.
* A file is modelled as the list of its raw lines, exactly as Python line
  iteration yields them (each line carries its trailing newline; per the
  on-disk format fact files are newline-terminated).  The file system is a
  finite association list from (folder, filename) keys to file contents,
  so that reads and writes of both the input and the output fact folders
  are observable.
* Python `set` objects holding strings are modelled as duplicate-free
  lists (insertion-ordered); `dict` / `defaultdict` objects as association
  lists.  The iteration order of a Python set is unspecified, so theorems
  never depend on the order chosen here beyond what the code guarantees.
* The relation-name mapping that `get_input_relation_names` extracts from
  the declaration file is passed to `applyDiffToInput` as the
  `relToFile` parameter; its regex extraction is out-of-scope glue.
* Errors (Python `ValueError` from tuple unpacking) are modelled with
  `Option` / `Except`.
-/

/-- Characters treated as whitespace by the embedded `strip` / `rstrip`
(the ASCII whitespace that can occur in fact files and diff lines). -/
def isWS (c : Char) : Bool := c == ' ' || c == '\t' || c == '\n' || c == '\r'

/-- Python strings, modelled as lists of characters. -/
abbrev Str := List Char

/-- Python `s.rstrip()`: remove trailing whitespace. -/
def pyRstrip (s : Str) : Str := s.rdropWhile isWS

/-- Python `s.strip()`: remove leading and trailing whitespace. -/
def pyStrip (s : Str) : Str := (s.dropWhile isWS).rdropWhile isWS

/-- Python `s.rstrip(c)` for a single character `c`: remove every trailing
occurrence of `c`. -/
def rstripAll (c : Char) (s : Str) : Str := s.rdropWhile (· == c)

/-- Python `s.split(c, maxsplit=1)` restricted to a one-character
separator: split at the first occurrence of `c`; `none` when `c` does not
occur (in the source this case surfaces as a `ValueError` when the result
is unpacked into two variables). -/
def splitFirstChar (c : Char) : Str → Option (Str × Str)
  | [] => none
  | x :: rest =>
    if x = c then some ([], rest)
    else (splitFirstChar c rest).map (fun p => (x :: p.1, p.2))

/-- Python `s.split(c)` for a one-character separator and no limit. -/
def splitChar (c : Char) : Str → List Str
  | [] => [[]]
  | x :: rest =>
    match splitChar c rest with
    | [] => [[]]
    | f :: fs => if x = c then [] :: f :: fs else (x :: f) :: fs

/-- Split a string at the leftmost occurrence of a (non-empty) separator
string: `firstSplit sep s = some (a, b)` when `s = a ++ sep ++ b` with `a`
shortest possible, `none` when `sep` does not occur in `s`. -/
def firstSplit (sep : Str) : Str → Option (Str × Str)
  | [] => none
  | c :: rest =>
    if sep.isPrefixOf (c :: rest) then some ([], (c :: rest).drop sep.length)
    else (firstSplit sep rest).map (fun p => (c :: p.1, p.2))

/-- Fuel-indexed worker for `splitOnSep` (the fuel keeps the recursion
structural, so that the function evaluates inside the kernel). -/
def splitOnSepAux (sep : Str) : Nat → Str → List Str
  | 0, s => [s]
  | fuel + 1, s =>
    match firstSplit sep s with
    | none => [s]
    | some (a, b) => a :: splitOnSepAux sep fuel b

/-- Python `s.split(sep)` for a non-empty separator string: repeatedly
split at the leftmost occurrence, left to right, non-overlapping. -/
def splitOnSep (sep : Str) (s : Str) : List Str := splitOnSepAux sep (s.length + 1) s

/-- Python `sep.join(xs)`. -/
def interJoin (sep : Str) : List Str → Str
  | [] => []
  | [x] => x
  | x :: y :: r => x ++ sep ++ interJoin sep (y :: r)

/-- Python `f'"\x7bx\x7d"'`: wrap a field in double quotes. -/
def quoteField (x : Str) : Str := '"' :: x ++ ['"']

/-- `printSouffleTuple` (source lines 200-203): renders
`relName("f1", "f2", ...)`, quoting every field unconditionally. -/
def printSouffleTuple (relName : Str) (t : List Str) : Str :=
  relName ++ '(' :: interJoin (", ".data) (t.map quoteField) ++ [')']

/-- Python `x[1:-1]`: drop the first and the last character. -/
def dropOuter (s : Str) : Str := (s.drop 1).dropLast

/-- `parseSouffleTuple` (source lines 205-215): split on the first `(`
(`none` models the `ValueError` raised by the two-variable unpacking when
no `(` is present), strip every trailing `)`, split the remainder on
`", "`, strip each piece, and strip a surrounding quote pair (stripping
the content again) when one is present. -/
def parseSouffleTuple (s : Str) : Option (Str × List Str) :=
  match splitFirstChar '(' s with
  | none => none
  | some (relName, rest) =>
    let xs := rstripAll ')' rest
    let fields := (splitOnSep (", ".data) xs).map pyStrip
    some (relName, fields.map (fun x =>
      if x.head? == some '"' && x.getLast? == some '"' then pyStrip (dropOuter x) else x))

/-- Lookup in an association list modelling `defaultdict(set)`: the
default for a missing key is the empty set. -/
def lookupMap : List (Str × List Str) → Str → List Str
  | [], _ => []
  | p :: rest, k => if p.1 = k then p.2 else lookupMap rest k

/-- `m[k].add(v)` on a `defaultdict(set)`: sets of strings are modelled as
duplicate-free insertion-ordered lists. -/
def addToMap : List (Str × List Str) → Str → Str → List (Str × List Str)
  | [], k, v => [(k, [v])]
  | (k', vs) :: rest, k, v =>
    if k' = k then (k', if v ∈ vs then vs else vs ++ [v]) :: rest
    else (k', vs) :: addToMap rest k v

/-- Relation-name resolution (source lines 111-115): look the relation up
in `relation_to_filename` and fall back to `rel + ".facts"`. -/
def resolveRel : List (Str × Str) → Str → Str
  | [], rel => rel ++ ".facts".data
  | p :: rest, rel => if p.1 = rel then p.2 else resolveRel rest rel

/-- The two mappings accumulated by the diff-reading loop:
`toInsert` and `toDelete`, keyed by resolved filename. -/
structure DiffMaps where
  ins : List (Str × List Str)
  del : List (Str × List Str)
deriving DecidableEq

/-- The errors the diff-reading loop can raise (both are `ValueError`
from tuple unpacking in the source): a line with no space, and a tuple
literal with no opening parenthesis. -/
inductive DiffErr where
  | unpackLine
  | unpackTuple
deriving DecidableEq

deriving instance DecidableEq for Except

/-- Outcome of processing one diff line. -/
inductive StepRes where
  | stop
  | err (e : DiffErr)
  | cont (dm : DiffMaps)

/-- One iteration of the diff-reading loop (source lines 102-125):
rstrip the line, stop at `commit`, split off the command token at the
first space, decode the tuple, resolve the relation name to a filename,
and add the tab-joined tuple string to the matching set.  A command token
that is neither `remove` nor `insert` falls through both branches and
leaves the maps unchanged. -/
def diffLineStep (m : List (Str × Str)) (acc : DiffMaps) (l : Str) : StepRes :=
  let l' := pyRstrip l
  if l' = "commit".data then .stop
  else
    match splitFirstChar ' ' l' with
    | none => .err .unpackLine
    | some (command, tupStr) =>
      match parseSouffleTuple tupStr with
      | none => .err .unpackTuple
      | some (rel, fields) =>
        let file := resolveRel m rel
        let key := interJoin ['\t'] fields
        if command = "remove".data then .cont ⟨acc.ins, addToMap acc.del file key⟩
        else if command = "insert".data then .cont ⟨addToMap acc.ins file key, acc.del⟩
        else .cont acc

/-- The diff-reading loop of `applyDiffToInput` (source lines 102-125). -/
def readDiff (m : List (Str × Str)) : List Str → DiffMaps → Except DiffErr DiffMaps
  | [], acc => .ok acc
  | l :: rest, acc =>
    match diffLineStep m acc l with
    | .stop => .ok acc
    | .err e => .error e
    | .cont acc' => readDiff m rest acc'

/-- The file system: an association list from (folder, filename) to file
content (the list of the file's raw lines). -/
abbrev FS := List ((Str × Str) × List Str)

/-- Read a file's lines. -/
def fsLookup : FS → Str → Str → Option (List Str)
  | [], _, _ => none
  | e :: rest, folder, name =>
    if e.1 = (folder, name) then some e.2 else fsLookup rest folder name

/-- Write (create or overwrite) a file. -/
def fsWrite : FS → Str → Str → List Str → FS
  | [], folder, name, c => [((folder, name), c)]
  | e :: rest, folder, name, c =>
    if e.1 = (folder, name) then ((folder, name), c) :: rest
    else e :: fsWrite rest folder name c

/-- `os.listdir`: the filenames present in a folder. -/
def fsListDir (fs : FS) (folder : Str) : List Str :=
  (fs.filter (fun e => e.1.1 = folder)).map (fun e => e.1.2)

/-- `toInsert.keys() | toDelete.keys()` (source lines 130 and 151). -/
def keysUnion (dm : DiffMaps) : List Str :=
  (dm.ins.map Prod.fst ++ dm.del.map Prod.fst).dedup

/-- The per-file transform of the materializing loop (source lines
135-143): keep every input line whose rstripped content is not in the
delete set, then append one newline-terminated line per insert string. -/
def materializeLines (dm : DiffMaps) (rel : Str) (lines : List Str) : List Str :=
  lines.filter (fun l => !(decide (pyRstrip l ∈ lookupMap dm.del rel)))
    ++ (lookupMap dm.ins rel).map (fun t => t ++ ['\n'])

/-- One iteration of the materializing loop (source lines 130-143): skip
the relation when its file is absent from the input folder, otherwise
write the transformed content into the output folder. -/
def materializeOne (inF outF : Str) (dm : DiffMaps) (fs : FS) (rel : Str) : FS :=
  match fsLookup fs inF rel with
  | none => fs
  | some lines => fsWrite fs outF rel (materializeLines dm rel lines)

/-- `file.endswith('.facts') or file.endswith('.txt')` (source line 149). -/
def isFactFile (name : Str) : Bool :=
  ".facts".data.isSuffixOf name || ".txt".data.isSuffixOf name

/-- One iteration of the copying loop (source lines 148-154): copy a
fact-suffixed file that no diff entry references, byte for byte, from the
input folder to the output folder. -/
def copyOne (inF outF : Str) (ks : List Str) (fs : FS) (file : Str) : FS :=
  if isFactFile file ∧ file ∉ ks then
    match fsLookup fs inF file with
    | some c => fsWrite fs outF file c
    | none => fs
  else fs

/-- `applyDiffToInput` (source lines 78-154): read the diff, materialize
every touched relation into the output folder, then copy every untouched
fact file.  (`os.makedirs` on the output folder is a no-op in this model;
the declaration-file mapping is the `relToFile` parameter.) -/
def applyDiffToInput (relToFile : List (Str × Str)) (diffs : List Str)
    (fs : FS) (inF outF : Str) : Except DiffErr FS :=
  match readDiff relToFile diffs ⟨[], []⟩ with
  | .error e => .error e
  | .ok dm =>
    let fs₁ := (keysUnion dm).foldl (materializeOne inF outF dm) fs
    .ok ((fsListDir fs₁ inF).foldl (copyOne inF outF (keysUnion dm)) fs₁)

/-- The loop body of `tuplesInRelation` (source lines 172-177): rstrip
the line, tab-split it into a tuple, and add it to `found` when it
belongs to the candidate set. -/
def tupleScanStep (tupsSet : Finset (List Str)) (acc : Finset (List Str)) (line : Str) :
    Finset (List Str) :=
  if splitChar '\t' (pyRstrip line) ∈ tupsSet then insert (splitChar '\t' (pyRstrip line)) acc
  else acc

/-- `tuplesInRelation` (source lines 166-183): stream the file, collect
into `found` every line-tuple that belongs to the candidate set, and
return whether the candidate set equals `found`. -/
def tuplesInRelation (fileLines : List Str) (tups : List (List Str)) : Bool :=
  decide (tups.toFinset = fileLines.foldl (tupleScanStep tups.toFinset) (∅ : Finset (List Str)))

/-! ## File-system lemmas -/

theorem fsLookup_nil (f n : Str) : fsLookup ([] : FS) f n = none := rfl

theorem fsWrite_nil (f n : Str) (c : List Str) :
    fsWrite ([] : FS) f n c = [((f, n), c)] := rfl

theorem fsWrite_cons (e : (Str × Str) × List Str) (rest : FS) (f n : Str) (c : List Str) :
    fsWrite (e :: rest) f n c =
      if e.1 = (f, n) then ((f, n), c) :: rest else e :: fsWrite rest f n c := rfl

theorem fsLookup_cons (e : (Str × Str) × List Str) (l : FS) (f n : Str) :
    fsLookup (e :: l) f n = if e.1 = (f, n) then some e.2 else fsLookup l f n := rfl

theorem fsLookup_fsWrite (fs : FS) (f n f' n' : Str) (c : List Str) :
    fsLookup (fsWrite fs f n c) f' n' =
      if (f, n) = (f', n') then some c else fsLookup fs f' n' := by
  induction fs with
  | nil =>
    rw [fsWrite_nil, fsLookup_cons, fsLookup_nil]
  | cons e rest ih =>
    rw [fsWrite_cons]
    by_cases h1 : e.1 = (f, n)
    · rw [if_pos h1, fsLookup_cons, fsLookup_cons]
      by_cases h2 : (f, n) = (f', n')
      · rw [if_pos h2, if_pos h2]
      · rw [if_neg h2, if_neg h2, if_neg (by rw [h1]; exact h2)]
    · rw [if_neg h1, fsLookup_cons, fsLookup_cons]
      by_cases h2 : e.1 = (f', n')
      · have h3 : (f, n) ≠ (f', n') := by
          intro hc
          exact h1 (by rw [hc, ← h2])
        rw [if_pos h2, if_pos h2, if_neg h3]
      · rw [if_neg h2, if_neg h2, ih]

theorem fsLookup_fsWrite_self (fs : FS) (f n : Str) (c : List Str) :
    fsLookup (fsWrite fs f n c) f n = some c := by
  rw [fsLookup_fsWrite, if_pos rfl]

theorem fsLookup_fsWrite_other (fs : FS) (f n f' n' : Str) (c : List Str)
    (h : (f, n) ≠ (f', n')) :
    fsLookup (fsWrite fs f n c) f' n' = fsLookup fs f' n' := by
  rw [fsLookup_fsWrite, if_neg h]

theorem fsListDir_nil (folder : Str) : fsListDir ([] : FS) folder = [] := rfl

theorem fsListDir_cons (e : (Str × Str) × List Str) (l : FS) (folder : Str) :
    fsListDir (e :: l) folder =
      if e.1.1 = folder then e.1.2 :: fsListDir l folder else fsListDir l folder := by
  by_cases h : e.1.1 = folder
  · rw [if_pos h]
    simp [fsListDir, List.filter_cons, h]
  · rw [if_neg h]
    simp [fsListDir, List.filter_cons, h]

theorem fsListDir_fsWrite_other (fs : FS) (f n folder : Str) (c : List Str)
    (h : f ≠ folder) : fsListDir (fsWrite fs f n c) folder = fsListDir fs folder := by
  induction fs with
  | nil =>
    rw [fsWrite_nil, fsListDir_cons]
    rw [if_neg (by exact h)]
  | cons e rest ih =>
    rw [fsWrite_cons]
    by_cases h1 : e.1 = (f, n)
    · have h2 : e.1.1 = f := by rw [h1]
      rw [if_pos h1, fsListDir_cons, fsListDir_cons]
      rw [if_neg (by exact h), if_neg (by rw [h2]; exact h)]
    · rw [if_neg h1, fsListDir_cons, fsListDir_cons, ih]

theorem mem_fsListDir_of_fsLookup (fs : FS) (folder name : Str) (c : List Str)
    (h : fsLookup fs folder name = some c) : name ∈ fsListDir fs folder := by
  induction fs with
  | nil => rw [fsLookup_nil] at h; exact absurd h (by simp)
  | cons e rest ih =>
    rw [fsLookup_cons] at h
    rw [fsListDir_cons]
    by_cases h1 : e.1 = (folder, name)
    · have ha : e.1.1 = folder := by rw [h1]
      have hb : e.1.2 = name := by rw [h1]
      rw [if_pos ha, hb]
      exact List.mem_cons_self _ _
    · rw [if_neg h1] at h
      by_cases h2 : e.1.1 = folder
      · rw [if_pos h2]
        exact List.mem_cons_of_mem _ (ih h)
      · rw [if_neg h2]
        exact ih h

theorem fsLookup_isSome_of_mem_fsListDir (fs : FS) (folder name : Str)
    (h : name ∈ fsListDir fs folder) : ∃ c, fsLookup fs folder name = some c := by
  induction fs with
  | nil => rw [fsListDir_nil] at h; exact absurd h (by simp)
  | cons e rest ih =>
    rw [fsListDir_cons] at h
    rw [fsLookup_cons]
    by_cases h1 : e.1 = (folder, name)
    · exact ⟨e.2, by rw [if_pos h1]⟩
    · rw [if_neg h1]
      by_cases h2 : e.1.1 = folder
      · rw [if_pos h2] at h
        rcases List.mem_cons.mp h with h3 | h3
        · exact absurd (Prod.ext h2 h3.symm) h1
        · exact ih h3
      · rw [if_neg h2] at h
        exact ih h

/-! ## Step lemmas for the materializing and copying loops -/

theorem materializeOne_none (inF outF : Str) (dm : DiffMaps) (fs : FS) (rel : Str)
    (h : fsLookup fs inF rel = none) : materializeOne inF outF dm fs rel = fs := by
  simp [materializeOne, h]

theorem materializeOne_some (inF outF : Str) (dm : DiffMaps) (fs : FS) (rel : Str)
    (lines : List Str) (h : fsLookup fs inF rel = some lines) :
    materializeOne inF outF dm fs rel = fsWrite fs outF rel (materializeLines dm rel lines) := by
  simp [materializeOne, h]

theorem materializeOne_lookup_in (inF outF : Str) (dm : DiffMaps) (fs : FS) (r n : Str)
    (hDisj : inF ≠ outF) :
    fsLookup (materializeOne inF outF dm fs r) inF n = fsLookup fs inF n := by
  cases hm : fsLookup fs inF r with
  | none => rw [materializeOne_none _ _ _ _ _ hm]
  | some lines =>
    rw [materializeOne_some _ _ _ _ _ _ hm]
    exact fsLookup_fsWrite_other _ _ _ _ _ _ (fun h => hDisj (congrArg Prod.fst h).symm)

theorem materializeOne_lookup_out_other (inF outF : Str) (dm : DiffMaps) (fs : FS) (r rel : Str)
    (h : r ≠ rel) :
    fsLookup (materializeOne inF outF dm fs r) outF rel = fsLookup fs outF rel := by
  cases hm : fsLookup fs inF r with
  | none => rw [materializeOne_none _ _ _ _ _ hm]
  | some lines =>
    rw [materializeOne_some _ _ _ _ _ _ hm]
    exact fsLookup_fsWrite_other _ _ _ _ _ _ (fun hc => h (congrArg Prod.snd hc))

theorem materializeOne_listdir_in (inF outF : Str) (dm : DiffMaps) (fs : FS) (r : Str)
    (hDisj : inF ≠ outF) :
    fsListDir (materializeOne inF outF dm fs r) inF = fsListDir fs inF := by
  cases hm : fsLookup fs inF r with
  | none => rw [materializeOne_none _ _ _ _ _ hm]
  | some lines =>
    rw [materializeOne_some _ _ _ _ _ _ hm]
    exact fsListDir_fsWrite_other _ _ _ _ _ (fun hc => hDisj hc.symm)

theorem copyOne_lookup_in (inF outF : Str) (ks : List Str) (fs : FS) (file n : Str)
    (hDisj : inF ≠ outF) :
    fsLookup (copyOne inF outF ks fs file) inF n = fsLookup fs inF n := by
  by_cases hc : isFactFile file ∧ file ∉ ks
  · cases hm : fsLookup fs inF file with
    | none => simp [copyOne, hc, hm]
    | some c =>
      simp only [copyOne, if_pos hc, hm]
      exact fsLookup_fsWrite_other _ _ _ _ _ _ (fun h => hDisj (congrArg Prod.fst h).symm)
  · simp [copyOne, hc]

theorem copyOne_listdir_in (inF outF : Str) (ks : List Str) (fs : FS) (file : Str)
    (hDisj : inF ≠ outF) :
    fsListDir (copyOne inF outF ks fs file) inF = fsListDir fs inF := by
  by_cases hc : isFactFile file ∧ file ∉ ks
  · cases hm : fsLookup fs inF file with
    | none => simp [copyOne, hc, hm]
    | some c =>
      simp only [copyOne, if_pos hc, hm]
      exact fsListDir_fsWrite_other _ _ _ _ _ (fun h => hDisj h.symm)
  · simp [copyOne, hc]

theorem copyOne_lookup_out_other (inF outF : Str) (ks : List Str) (fs : FS) (file rel : Str)
    (h : file ≠ rel) :
    fsLookup (copyOne inF outF ks fs file) outF rel = fsLookup fs outF rel := by
  by_cases hc : isFactFile file ∧ file ∉ ks
  · cases hm : fsLookup fs inF file with
    | none => simp [copyOne, hc, hm]
    | some c =>
      simp only [copyOne, if_pos hc, hm]
      exact fsLookup_fsWrite_other _ _ _ _ _ _ (fun hc2 => h (congrArg Prod.snd hc2))
  · simp [copyOne, hc]

theorem copyOne_lookup_out_keyed (inF outF : Str) (ks : List Str) (fs : FS) (file rel : Str)
    (h : rel ∈ ks) :
    fsLookup (copyOne inF outF ks fs file) outF rel = fsLookup fs outF rel := by
  by_cases hf : file = rel
  · subst hf
    have hc : ¬ (isFactFile file ∧ file ∉ ks) := fun hc => hc.2 h
    simp [copyOne, hc]
  · exact copyOne_lookup_out_other _ _ _ _ _ _ hf

theorem copyOne_lookup_out_nosuffix (inF outF : Str) (ks : List Str) (fs : FS) (file rel : Str)
    (h : isFactFile rel = false) :
    fsLookup (copyOne inF outF ks fs file) outF rel = fsLookup fs outF rel := by
  by_cases hf : file = rel
  · subst hf
    have hc : ¬ (isFactFile file ∧ file ∉ ks) := fun hc => by
      rw [h] at hc
      exact absurd hc.1 (by simp)
    simp [copyOne, hc]
  · exact copyOne_lookup_out_other _ _ _ _ _ _ hf

theorem copyOne_copies (inF outF : Str) (ks : List Str) (fs : FS) (file : Str) (c : List Str)
    (hsuf : isFactFile file = true) (hks : file ∉ ks) (hm : fsLookup fs inF file = some c) :
    copyOne inF outF ks fs file = fsWrite fs outF file c := by
  have hc : isFactFile file ∧ file ∉ ks := ⟨by rw [hsuf], hks⟩
  simp only [copyOne, if_pos hc, hm]

/-! ## Fold lemmas for the two loops of `applyDiffToInput` -/

theorem matFold_lookup_in (inF outF : Str) (dm : DiffMaps) (hDisj : inF ≠ outF) :
    ∀ (ks : List Str) (fs : FS) (n : Str),
      fsLookup (ks.foldl (materializeOne inF outF dm) fs) inF n = fsLookup fs inF n := by
  intro ks
  induction ks with
  | nil => intro fs n; rfl
  | cons k ks ih =>
    intro fs n
    rw [List.foldl_cons, ih, materializeOne_lookup_in _ _ _ _ _ _ hDisj]

theorem matFold_listdir_in (inF outF : Str) (dm : DiffMaps) (hDisj : inF ≠ outF) :
    ∀ (ks : List Str) (fs : FS),
      fsListDir (ks.foldl (materializeOne inF outF dm) fs) inF = fsListDir fs inF := by
  intro ks
  induction ks with
  | nil => intro fs; rfl
  | cons k ks ih =>
    intro fs
    rw [List.foldl_cons, ih, materializeOne_listdir_in _ _ _ _ _ hDisj]

theorem matFold_lookup_out_notmem (inF outF : Str) (dm : DiffMaps) (rel : Str) :
    ∀ (ks : List Str) (fs : FS), rel ∉ ks →
      fsLookup (ks.foldl (materializeOne inF outF dm) fs) outF rel = fsLookup fs outF rel := by
  intro ks
  induction ks with
  | nil => intro fs _; rfl
  | cons k ks ih =>
    intro fs hmem
    rw [List.foldl_cons, ih _ (fun h => hmem (List.mem_cons_of_mem _ h)),
      materializeOne_lookup_out_other _ _ _ _ _ _
        (fun h => hmem (by rw [← h]; exact List.mem_cons_self _ _))]

theorem matFold_out_mem (inF outF : Str) (dm : DiffMaps) (rel : Str) (hDisj : inF ≠ outF) :
    ∀ (ks : List Str) (fs : FS) (lines : List Str), ks.Nodup → rel ∈ ks →
      fsLookup fs inF rel = some lines →
      fsLookup (ks.foldl (materializeOne inF outF dm) fs) outF rel
        = some (materializeLines dm rel lines) := by
  intro ks
  induction ks with
  | nil => intro fs lines _ hmem; exact absurd hmem (by simp)
  | cons k ks ih =>
    intro fs lines hnd hmem hin
    rw [List.foldl_cons]
    by_cases hk : k = rel
    · subst hk
      rw [materializeOne_some _ _ _ _ _ _ hin,
        matFold_lookup_out_notmem _ _ _ _ _ _ (List.Nodup.not_mem hnd),
        fsLookup_fsWrite_self]
    · have hmem' : rel ∈ ks := by
        rcases List.mem_cons.mp hmem with h | h
        · exact absurd h.symm hk
        · exact h
      exact ih _ _ (List.Nodup.of_cons hnd) hmem'
        (by rw [materializeOne_lookup_in _ _ _ _ _ _ hDisj]; exact hin)

theorem matFold_out_missing (inF outF : Str) (dm : DiffMaps) (rel : Str) (hDisj : inF ≠ outF) :
    ∀ (ks : List Str) (fs : FS), fsLookup fs inF rel = none →
      fsLookup (ks.foldl (materializeOne inF outF dm) fs) outF rel = fsLookup fs outF rel := by
  intro ks
  induction ks with
  | nil => intro fs _; rfl
  | cons k ks ih =>
    intro fs hin
    rw [List.foldl_cons]
    by_cases hk : k = rel
    · subst hk
      rw [materializeOne_none _ _ _ _ _ hin]
      exact ih _ hin
    · rw [ih _ (by rw [materializeOne_lookup_in _ _ _ _ _ _ hDisj]; exact hin),
        materializeOne_lookup_out_other _ _ _ _ _ _ hk]

theorem copyFold_lookup_in (inF outF : Str) (ks : List Str) (hDisj : inF ≠ outF) :
    ∀ (files : List Str) (fs : FS) (n : Str),
      fsLookup (files.foldl (copyOne inF outF ks) fs) inF n = fsLookup fs inF n := by
  intro files
  induction files with
  | nil => intro fs n; rfl
  | cons f files ih =>
    intro fs n
    rw [List.foldl_cons, ih, copyOne_lookup_in _ _ _ _ _ _ hDisj]

theorem copyFold_listdir_in (inF outF : Str) (ks : List Str) (hDisj : inF ≠ outF) :
    ∀ (files : List Str) (fs : FS),
      fsListDir (files.foldl (copyOne inF outF ks) fs) inF = fsListDir fs inF := by
  intro files
  induction files with
  | nil => intro fs; rfl
  | cons f files ih =>
    intro fs
    rw [List.foldl_cons, ih, copyOne_listdir_in _ _ _ _ _ hDisj]

theorem copyFold_out_keyed (inF outF : Str) (ks : List Str) (rel : Str) (h : rel ∈ ks) :
    ∀ (files : List Str) (fs : FS),
      fsLookup (files.foldl (copyOne inF outF ks) fs) outF rel = fsLookup fs outF rel := by
  intro files
  induction files with
  | nil => intro fs; rfl
  | cons f files ih =>
    intro fs
    rw [List.foldl_cons, ih, copyOne_lookup_out_keyed _ _ _ _ _ _ h]

theorem copyFold_out_nosuffix (inF outF : Str) (ks : List Str) (rel : Str)
    (h : isFactFile rel = false) :
    ∀ (files : List Str) (fs : FS),
      fsLookup (files.foldl (copyOne inF outF ks) fs) outF rel = fsLookup fs outF rel := by
  intro files
  induction files with
  | nil => intro fs; rfl
  | cons f files ih =>
    intro fs
    rw [List.foldl_cons, ih, copyOne_lookup_out_nosuffix _ _ _ _ _ _ h]

theorem copyFold_out_unlisted (inF outF : Str) (ks : List Str) (file : Str) :
    ∀ (files : List Str) (fs : FS), file ∉ files →
      fsLookup (files.foldl (copyOne inF outF ks) fs) outF file = fsLookup fs outF file := by
  intro files
  induction files with
  | nil => intro fs _; rfl
  | cons f files ih =>
    intro fs hmem
    rw [List.foldl_cons, ih _ (fun h => hmem (List.mem_cons_of_mem _ h)),
      copyOne_lookup_out_other _ _ _ _ _ _
        (fun h => hmem (by rw [← h]; exact List.mem_cons_self _ _))]

theorem copyFold_copies (inF outF : Str) (ks : List Str) (file : Str) (hDisj : inF ≠ outF)
    (hsuf : isFactFile file = true) (hks : file ∉ ks) :
    ∀ (files : List Str) (fs : FS) (c : List Str), file ∈ files →
      fsLookup fs inF file = some c →
      fsLookup (files.foldl (copyOne inF outF ks) fs) outF file = some c := by
  intro files
  induction files with
  | nil => intro fs c hmem; exact absurd hmem (by simp)
  | cons f files ih =>
    intro fs c hmem hin
    rw [List.foldl_cons]
    by_cases hf : f = file
    · by_cases hrest : file ∈ files
      · exact ih _ _ hrest (by rw [hf, copyOne_lookup_in _ _ _ _ _ _ hDisj]; exact hin)
      · rw [copyFold_out_unlisted _ _ _ _ _ _ hrest, hf,
          copyOne_copies _ _ _ _ _ _ hsuf hks hin, fsLookup_fsWrite_self]
    · have hmem' : file ∈ files := by
        rcases List.mem_cons.mp hmem with h | h
        · exact absurd h.symm hf
        · exact h
      exact ih _ _ hmem' (by rw [copyOne_lookup_in _ _ _ _ _ _ hDisj]; exact hin)

/-- When the diff reads successfully, `applyDiffToInput` succeeds and its
result is the copy fold applied after the materialize fold. -/
theorem applyDiffToInput_ok (m : List (Str × Str)) (diffs : List Str) (fs : FS)
    (inF outF : Str) (dm : DiffMaps) (hread : readDiff m diffs ⟨[], []⟩ = .ok dm) :
    applyDiffToInput m diffs fs inF outF =
      .ok ((fsListDir ((keysUnion dm).foldl (materializeOne inF outF dm) fs) inF).foldl
        (copyOne inF outF (keysUnion dm))
        ((keysUnion dm).foldl (materializeOne inF outF dm) fs)) := by
  simp [applyDiffToInput, hread]

theorem keysUnion_nodup (dm : DiffMaps) : (keysUnion dm).Nodup := List.nodup_dedup _

/-- C1: for every relation file touched by the diff and present in the
input directory, `applyDiffToInput` writes an output file holding first
the input file's lines whose rstripped content is not in the delete set
for that file, in input order, followed by one appended
newline-terminated line per tuple string in the insert set for that file;
duplicates are preserved, not deduplicated. -/
theorem souffle_C1 (m : List (Str × Str)) (diffs : List Str) (fs : FS) (inF outF : Str)
    (dm : DiffMaps) (rel : Str) (lines : List Str) (fs' : FS)
    (hDisj : inF ≠ outF)
    (hread : readDiff m diffs ⟨[], []⟩ = .ok dm)
    (happly : applyDiffToInput m diffs fs inF outF = .ok fs')
    (hrel : rel ∈ keysUnion dm)
    (hin : fsLookup fs inF rel = some lines) :
    fsLookup fs' outF rel =
      some (lines.filter (fun l => !(decide (pyRstrip l ∈ lookupMap dm.del rel)))
        ++ (lookupMap dm.ins rel).map (fun t => t ++ ['\n'])) := by
  rw [applyDiffToInput_ok _ _ _ _ _ _ hread] at happly
  injection happly with h
  subst h
  rw [copyFold_out_keyed _ _ _ _ hrel,
    matFold_out_mem _ _ _ _ hDisj _ _ _ (keysUnion_nodup dm) hrel hin]
  rfl

/-- C2: every file of the input directory whose name ends in `.facts` or
`.txt` and which is not a key of the insert or delete mapping is copied
unchanged into the output directory under the same name; a file that
neither has a recognized fact-file suffix nor is referenced by the diff
is not copied (its output-directory entry is untouched). -/
theorem souffle_C2 (m : List (Str × Str)) (diffs : List Str) (fs : FS) (inF outF : Str)
    (dm : DiffMaps) (file : Str) (content : List Str) (fs' : FS)
    (hDisj : inF ≠ outF)
    (hread : readDiff m diffs ⟨[], []⟩ = .ok dm)
    (happly : applyDiffToInput m diffs fs inF outF = .ok fs') :
    (isFactFile file = true → file ∉ keysUnion dm → fsLookup fs inF file = some content →
      fsLookup fs' outF file = some content)
    ∧ (isFactFile file = false → file ∉ keysUnion dm →
      fsLookup fs' outF file = fsLookup fs outF file) := by
  rw [applyDiffToInput_ok _ _ _ _ _ _ hread] at happly
  injection happly with h
  subst h
  constructor
  · intro hsuf hks hin
    have hin1 : fsLookup ((keysUnion dm).foldl (materializeOne inF outF dm) fs) inF file
        = some content := by
      rw [matFold_lookup_in _ _ _ hDisj]; exact hin
    exact copyFold_copies _ _ _ _ hDisj hsuf hks _ _ _
      (mem_fsListDir_of_fsLookup _ _ _ _ hin1) hin1
  · intro hsuf hks
    rw [copyFold_out_nosuffix _ _ _ _ hsuf, matFold_lookup_out_notmem _ _ _ _ _ _ hks]

/-- C6: a filename key of the insert or delete mapping whose file does
not exist in the input directory is skipped entirely: the apply still
succeeds (no error) and the output entry for that filename is left
exactly as it was (in particular, none is created). -/
theorem souffle_C6 (m : List (Str × Str)) (diffs : List Str) (fs : FS) (inF outF : Str)
    (dm : DiffMaps) (rel : Str)
    (hDisj : inF ≠ outF)
    (hread : readDiff m diffs ⟨[], []⟩ = .ok dm)
    (hrel : rel ∈ keysUnion dm)
    (hmiss : fsLookup fs inF rel = none) :
    ∃ fs', applyDiffToInput m diffs fs inF outF = .ok fs'
      ∧ fsLookup fs' outF rel = fsLookup fs outF rel := by
  refine ⟨_, applyDiffToInput_ok _ _ _ _ _ _ hread, ?_⟩
  rw [copyFold_out_keyed _ _ _ _ hrel, matFold_out_missing _ _ _ _ hDisj _ _ hmiss]

/-- C7: provided the input and output fact folders are distinct,
`applyDiffToInput` never mutates the input folder: afterwards every file
of the input folder has exactly its previous content, and the folder's
listing is unchanged (input files are only read). -/
theorem souffle_C7 (m : List (Str × Str)) (diffs : List Str) (fs : FS) (inF outF : Str)
    (fs' : FS)
    (hDisj : inF ≠ outF)
    (happly : applyDiffToInput m diffs fs inF outF = .ok fs') :
    (∀ name, fsLookup fs' inF name = fsLookup fs inF name)
    ∧ fsListDir fs' inF = fsListDir fs inF := by
  cases hread : readDiff m diffs ⟨[], []⟩ with
  | error e => simp [applyDiffToInput, hread] at happly
  | ok dm =>
    rw [applyDiffToInput_ok _ _ _ _ _ _ hread] at happly
    injection happly with h
    subst h
    constructor
    · intro name
      rw [copyFold_lookup_in _ _ _ hDisj, matFold_lookup_in _ _ _ hDisj]
    · rw [copyFold_listdir_in _ _ _ hDisj, matFold_listdir_in _ _ _ hDisj]

/-- Witness for C1: the end-to-end edge scenario, with the post-commit
insert ignored and the output holding the retained line then the insert. -/
theorem souffle_C1_witness :
    fsLookup [(("in".data, "edge.facts".data), ["1\t2\n".data, "3\t4\n".data]),
        (("out".data, "edge.facts".data), ["3\t4\n".data, "5\t6\n".data])]
      "out".data "edge.facts".data =
      some (["1\t2\n".data, "3\t4\n".data].filter
          (fun l => !(decide (pyRstrip l ∈
            lookupMap (DiffMaps.mk [("edge.facts".data, ["5\t6".data])]
              [("edge.facts".data, ["1\t2".data])]).del "edge.facts".data)))
        ++ ((lookupMap (DiffMaps.mk [("edge.facts".data, ["5\t6".data])]
              [("edge.facts".data, ["1\t2".data])]).ins "edge.facts".data).map
            (fun t => t ++ ['\n']))) :=
  souffle_C1 []
    ["remove edge(\"1\", \"2\")".data, "insert edge(\"5\", \"6\")".data, "commit".data,
      "insert edge(\"9\", \"9\")".data]
    [(("in".data, "edge.facts".data), ["1\t2\n".data, "3\t4\n".data])]
    "in".data "out".data
    ⟨[("edge.facts".data, ["5\t6".data])], [("edge.facts".data, ["1\t2".data])]⟩
    "edge.facts".data ["1\t2\n".data, "3\t4\n".data]
    [(("in".data, "edge.facts".data), ["1\t2\n".data, "3\t4\n".data]),
      (("out".data, "edge.facts".data), ["3\t4\n".data, "5\t6\n".data])]
    (by decide) (by decide) (by decide) (by decide) (by decide)

/-- Witness for C2: an untouched `other.facts` is copied unchanged. -/
theorem souffle_C2_witness :
    fsLookup [(("in".data, "other.facts".data), ["9\t9\n".data]),
        (("out".data, "other.facts".data), ["9\t9\n".data])]
      "out".data "other.facts".data = some ["9\t9\n".data] :=
  (souffle_C2 [] ["insert edge(\"5\", \"6\")".data, "commit".data]
    [(("in".data, "other.facts".data), ["9\t9\n".data])]
    "in".data "out".data
    ⟨[("edge.facts".data, ["5\t6".data])], []⟩
    "other.facts".data ["9\t9\n".data]
    [(("in".data, "other.facts".data), ["9\t9\n".data]),
      (("out".data, "other.facts".data), ["9\t9\n".data])]
    (by decide) (by decide) (by decide)).1 (by decide) (by decide) (by decide)

/-- Witness for C6: the ghost scenario — a diff references `ghost` with no
input file, the apply succeeds and creates no `ghost.facts`. -/
theorem souffle_C6_witness :
    fsLookup [(("in".data, "edge.facts".data), ["1\t2\n".data]),
        (("out".data, "edge.facts".data), ["1\t2\n".data])]
      "out".data "ghost.facts".data =
      fsLookup [(("in".data, "edge.facts".data), ["1\t2\n".data])]
        "out".data "ghost.facts".data := by
  obtain ⟨fs', h1, h2⟩ := souffle_C6 [] ["insert ghost(\"1\")".data, "commit".data]
    [(("in".data, "edge.facts".data), ["1\t2\n".data])]
    "in".data "out".data
    ⟨[("ghost.facts".data, ["1".data])], []⟩ "ghost.facts".data
    (by decide) (by decide) (by decide) (by decide)
  have h3 : (Except.ok fs' : Except DiffErr FS)
      = .ok [(("in".data, "edge.facts".data), ["1\t2\n".data]),
          (("out".data, "edge.facts".data), ["1\t2\n".data])] := by
    rw [← h1]; decide
  injection h3 with h3
  rw [← h3]
  exact h2

/-- Witness for C7: applying a trivial diff leaves the input folder's
`a.facts` untouched. -/
theorem souffle_C7_witness :
    fsLookup [(("in".data, "a.facts".data), ["7\n".data]),
        (("out".data, "a.facts".data), ["7\n".data])]
      "in".data "a.facts".data =
      fsLookup [(("in".data, "a.facts".data), ["7\n".data])] "in".data "a.facts".data :=
  (souffle_C7 [] ["commit".data]
    [(("in".data, "a.facts".data), ["7\n".data])]
    "in".data "out".data
    [(("in".data, "a.facts".data), ["7\n".data]),
      (("out".data, "a.facts".data), ["7\n".data])]
    (by decide) (by decide)).1 "a.facts".data

/-! ## Diff-reader claims -/

theorem readDiff_cons (m : List (Str × Str)) (l : Str) (rest : List Str) (acc : DiffMaps) :
    readDiff m (l :: rest) acc =
      match diffLineStep m acc l with
      | .stop => .ok acc
      | .err e => .error e
      | .cont acc' => readDiff m rest acc' := rfl

theorem diffLineStep_commit (m : List (Str × Str)) (acc : DiffMaps) :
    diffLineStep m acc "commit".data = .stop := by
  have h : pyRstrip "commit".data = "commit".data := by decide
  simp [diffLineStep, h]

/-- C3: the diff reader stops permanently at the first `commit` line: the
lines after it, however malformed, are never parsed and never contribute
to the insert or delete mappings (the result is the same as if the diff
ended right at that `commit` line). -/
theorem souffle_C3 (m : List (Str × Str)) (pre post : List Str) (acc : DiffMaps) :
    readDiff m (pre ++ "commit".data :: post) acc
      = readDiff m (pre ++ ["commit".data]) acc := by
  induction pre generalizing acc with
  | nil =>
    rw [List.nil_append, List.nil_append, readDiff_cons, readDiff_cons,
      diffLineStep_commit]
  | cons x pre ih =>
    rw [List.cons_append, List.cons_append, readDiff_cons, readDiff_cons]
    cases diffLineStep m acc x with
    | stop => rfl
    | err e => rfl
    | cont acc' => exact ih acc'

theorem resolveRel_cons (p : Str × Str) (rest : List (Str × Str)) (rel : Str) :
    resolveRel (p :: rest) rel = if p.1 = rel then p.2 else resolveRel rest rel := rfl

theorem resolveRel_not_mem (rel : Str) :
    ∀ m : List (Str × Str), (∀ p ∈ m, p.1 ≠ rel) →
      resolveRel m rel = rel ++ ".facts".data := by
  intro m
  induction m with
  | nil => intro _; rfl
  | cons p rest ih =>
    intro hnone
    rw [resolveRel_cons, if_neg (hnone p (List.mem_cons_self _ _))]
    exact ih (fun q hq => hnone q (List.mem_cons_of_mem _ hq))

/-- C8: a decoded diff tuple's relation name is resolved to a filename by
first-match lookup in the relation-to-filename mapping (built from the
declaration file, here the `m` parameter), falling back to the relation
name with `.facts` appended when no entry matches; the tab-joined tuple
string is then added to the insert or delete set under that filename. -/
theorem souffle_C8 (m : List (Str × Str)) (rest : List Str) (acc : DiffMaps)
    (l cmd tupStr rel : Str) (fields : List Str)
    (h1 : pyRstrip l ≠ "commit".data)
    (h2 : splitFirstChar ' ' (pyRstrip l) = some (cmd, tupStr))
    (h3 : parseSouffleTuple tupStr = some (rel, fields)) :
    (cmd = "remove".data →
      readDiff m (l :: rest) acc =
        readDiff m rest ⟨acc.ins, addToMap acc.del (resolveRel m rel) (interJoin ['\t'] fields)⟩)
    ∧ (cmd = "insert".data →
      readDiff m (l :: rest) acc =
        readDiff m rest ⟨addToMap acc.ins (resolveRel m rel) (interJoin ['\t'] fields), acc.del⟩)
    ∧ (∀ fn m', resolveRel ((rel, fn) :: m') rel = fn)
    ∧ ((∀ p ∈ m, p.1 ≠ rel) → resolveRel m rel = rel ++ ".facts".data) := by
  refine ⟨?_, ?_, ?_, ?_⟩
  · intro hc
    subst hc
    rw [readDiff_cons]
    simp [diffLineStep, if_neg h1, h2, h3]
  · intro hc
    subst hc
    rw [readDiff_cons]
    simp [diffLineStep, if_neg h1, h2, h3]
  · intro fn m'
    rw [resolveRel_cons, if_pos rfl]
  · exact resolveRel_not_mem rel m

/-- Witness for C8: an `insert edge("5", "6")` line with an empty mapping
adds the tab-joined tuple under `edge.facts`. -/
theorem souffle_C8_witness :
    readDiff [] ["insert edge(\"5\", \"6\")".data] ⟨[], []⟩ =
      readDiff [] []
        ⟨addToMap [] (resolveRel [] "edge".data) (interJoin ['\t'] ["5".data, "6".data]), []⟩ :=
  (souffle_C8 [] [] ⟨[], []⟩ "insert edge(\"5\", \"6\")".data "insert".data
    "edge(\"5\", \"6\")".data "edge".data ["5".data, "6".data]
    (by decide) (by decide) (by decide)).2.1 rfl

/-- Counterexample for C4: a non-sentinel line whose command token `foo`
is neither `insert` nor `remove` (but which does contain a space and a
parsable tuple) is accepted silently — the reader returns success with
empty mappings instead of failing with an error. -/
theorem souffle_C4_counterexample :
    readDiff [] ["foo x(\"1\")".data] ⟨[], []⟩ = .ok ⟨[], []⟩ := by decide

/-- C4 as amended: a non-sentinel diff line with no space fails with the
line-unpacking error, and a line whose tuple part has no `(` fails with
the tuple-unpacking error (both propagated to the caller); but a line
whose command token is neither `insert` nor `remove`, when its remainder
parses as a tuple literal, is silently ignored: it contributes nothing to
either mapping and raises no error. -/
theorem souffle_C4_amended (m : List (Str × Str)) (rest : List Str) (acc : DiffMaps) (l : Str)
    (h1 : pyRstrip l ≠ "commit".data) :
    (splitFirstChar ' ' (pyRstrip l) = none →
      readDiff m (l :: rest) acc = .error .unpackLine)
    ∧ (∀ cmd tupStr, splitFirstChar ' ' (pyRstrip l) = some (cmd, tupStr) →
      parseSouffleTuple tupStr = none →
      readDiff m (l :: rest) acc = .error .unpackTuple)
    ∧ (∀ cmd tupStr rel fields, splitFirstChar ' ' (pyRstrip l) = some (cmd, tupStr) →
      parseSouffleTuple tupStr = some (rel, fields) →
      cmd ≠ "remove".data → cmd ≠ "insert".data →
      readDiff m (l :: rest) acc = readDiff m rest acc) := by
  refine ⟨?_, ?_, ?_⟩
  · intro h2
    rw [readDiff_cons]
    simp only [diffLineStep, if_neg h1, h2]
  · intro cmd tupStr h2 h3
    rw [readDiff_cons]
    simp only [diffLineStep, if_neg h1, h2, h3]
  · intro cmd tupStr rel fields h2 h3 hc1 hc2
    rw [readDiff_cons]
    simp only [diffLineStep, if_neg h1, h2, h3]
    rw [if_neg hc1, if_neg hc2]

/-- Witness for C4 (amended): a spaceless line errors with the
line-unpacking error. -/
theorem souffle_C4_witness :
    readDiff [] ["nospace".data] ⟨[], []⟩ = .error .unpackLine :=
  (souffle_C4_amended [] [] ⟨[], []⟩ "nospace".data (by decide)).1 (by decide)

/-! ## Membership-check claim -/

theorem tuplesFold_mem (tupsSet : Finset (List Str)) :
    ∀ (lines : List Str) (acc : Finset (List Str)) (x : List Str),
      x ∈ lines.foldl (tupleScanStep tupsSet) acc ↔
        x ∈ acc ∨ (x ∈ tupsSet ∧ ∃ l ∈ lines, splitChar '\t' (pyRstrip l) = x) := by
  intro lines
  induction lines with
  | nil => intro acc x; simp
  | cons l ls ih =>
    intro acc x
    rw [List.foldl_cons]
    by_cases hl : splitChar '\t' (pyRstrip l) ∈ tupsSet
    · rw [tupleScanStep, if_pos hl, ih]
      simp only [Finset.mem_insert, List.mem_cons]
      constructor
      · rintro ((h | h) | h)
        · exact Or.inr ⟨h ▸ hl, l, Or.inl rfl, h.symm⟩
        · exact Or.inl h
        · exact Or.inr ⟨h.1, h.2.choose, Or.inr h.2.choose_spec.1, h.2.choose_spec.2⟩
      · rintro (h | ⟨hx, l', (hl' | hl'), hsp⟩)
        · exact Or.inl (Or.inr h)
        · exact Or.inl (Or.inl (by rw [← hsp, hl']))
        · exact Or.inr ⟨hx, l', hl', hsp⟩
    · rw [tupleScanStep, if_neg hl, ih]
      constructor
      · rintro (h | h)
        · exact Or.inl h
        · exact Or.inr ⟨h.1, h.2.choose, List.mem_cons_of_mem _ h.2.choose_spec.1,
            h.2.choose_spec.2⟩
      · rintro (h | ⟨hx, l', hl', hsp⟩)
        · exact Or.inl h
        · rcases List.mem_cons.mp hl' with h2 | h2
          · exact absurd (by rw [← h2, hsp]; exact hx) hl
          · exact Or.inr ⟨hx, l', h2, hsp⟩

/-- C9: `tuplesInRelation` returns `true` exactly when every candidate
tuple occurs as some line of the file (each line read as the tab-split
tuple of its rstripped content); in particular it returns `true` on an
empty candidate set for any file. -/
theorem souffle_C9 (fileLines : List Str) (tups : List (List Str)) :
    (tuplesInRelation fileLines tups = true ↔
      ∀ t ∈ tups, ∃ l ∈ fileLines, splitChar '\t' (pyRstrip l) = t)
    ∧ tuplesInRelation fileLines [] = true := by
  constructor
  · simp only [tuplesInRelation, decide_eq_true_eq]
    constructor
    · intro heq t ht
      have hx : t ∈ tups.toFinset := List.mem_toFinset.mpr ht
      rw [heq, tuplesFold_mem] at hx
      rcases hx with h | h
      · exact absurd h (Finset.not_mem_empty _)
      · exact h.2
    · intro hall
      apply Finset.ext
      intro x
      rw [tuplesFold_mem]
      simp only [Finset.not_mem_empty, false_or]
      constructor
      · intro hx
        exact ⟨hx, hall x (List.mem_toFinset.mp hx)⟩
      · intro hx
        exact hx.1
  · simp only [tuplesInRelation, decide_eq_true_eq]
    apply Finset.ext
    intro x
    rw [tuplesFold_mem]
    simp

/-! ## Codec claims -/

theorem dropWhile_eq_self_of_prefix (p : Char → Bool) :
    ∀ (l l' : Str), l.dropWhile p = l → l' <+: l → l'.dropWhile p = l' := by
  intro l l' h hp
  cases l' with
  | nil => rfl
  | cons x r =>
    cases l with
    | nil => exact absurd (List.prefix_nil.mp hp) (by simp)
    | cons y t =>
      have hxy : x = y := by
        rcases hp with ⟨u, hu⟩
        exact (List.cons.injEq _ _ _ _).mp hu |>.1
      have hpy : p y = false := by
        by_contra hh
        have hpy' : p y = true := by
          cases hb : p y
          · exact absurd hb hh
          · rfl
        rw [List.dropWhile_cons, if_pos hpy'] at h
        have hlen := congrArg List.length h
        have hle := (List.dropWhile_sublist (l := t) p).length_le
        simp at hlen
        omega
      rw [List.dropWhile_cons, hxy, if_neg (by simp [hpy])]

theorem pyStrip_idem (s : Str) : pyStrip (pyStrip s) = pyStrip s := by
  unfold pyStrip
  have h1 : (s.dropWhile isWS).dropWhile isWS = s.dropWhile isWS :=
    List.dropWhile_idempotent _ _
  have h2 : ((s.dropWhile isWS).rdropWhile isWS).dropWhile isWS
      = (s.dropWhile isWS).rdropWhile isWS :=
    dropWhile_eq_self_of_prefix _ _ _ h1 (List.rdropWhile_prefix _ _)
  rw [h2, List.rdropWhile_idempotent]

/-- C10: every field of a tuple decoded by `parseSouffleTuple` carries no
leading or trailing whitespace — each comma-space-separated piece is
stripped, and the content left after removing a surrounding quote pair is
stripped again, so every decoded field is invariant under a further
strip. -/
theorem souffle_C10 (s n : Str) (fields : List Str)
    (h : parseSouffleTuple s = some (n, fields)) :
    ∀ f ∈ fields, pyStrip f = f := by
  intro f hf
  cases hsp : splitFirstChar '(' s with
  | none => simp [parseSouffleTuple, hsp] at h
  | some p =>
    obtain ⟨relName, rest⟩ := p
    simp only [parseSouffleTuple, hsp, Option.some.injEq, Prod.mk.injEq] at h
    rw [← h.2] at hf
    rcases List.mem_map.mp hf with ⟨y, hy, hgy⟩
    rcases List.mem_map.mp hy with ⟨x, _, hyx⟩
    by_cases hq : (y.head? == some '"' && y.getLast? == some '"') = true
    · rw [if_pos hq] at hgy
      rw [← hgy, pyStrip_idem]
    · rw [if_neg hq] at hgy
      rw [← hgy, ← hyx, pyStrip_idem]

/-- Witness for C10: the padded literal `e( "x " )` decodes to the
stripped field `x`. -/
theorem souffle_C10_witness : pyStrip "x".data = "x".data :=
  (souffle_C10 "e( \"x \" )".data "e".data ["x".data] (by decide)) "x".data (by decide)

/-! ## Round-trip development for the tuple codec -/

/-- Whether the two-character sequence `c₁ c₂` occurs (consecutively)
somewhere in the string. -/
def hasPair (c₁ c₂ : Char) : Str → Bool
  | x :: y :: r => if x = c₁ ∧ y = c₂ then true else hasPair c₁ c₂ (y :: r)
  | _ => false

theorem hasPair_nil (c₁ c₂ : Char) : hasPair c₁ c₂ [] = false := rfl

theorem hasPair_single (c₁ c₂ x : Char) : hasPair c₁ c₂ [x] = false := rfl

theorem hasPair_cons₂ (c₁ c₂ x y : Char) (r : Str) :
    hasPair c₁ c₂ (x :: y :: r)
      = if x = c₁ ∧ y = c₂ then true else hasPair c₁ c₂ (y :: r) := rfl

theorem hasPair_concat_of (c₁ c₂ d : Char) (hd : d ≠ c₂) :
    ∀ s : Str, hasPair c₁ c₂ s = false → hasPair c₁ c₂ (s ++ [d]) = false := by
  intro s
  induction s with
  | nil => intro _; rfl
  | cons a s' ih =>
    intro h
    cases s' with
    | nil =>
      show hasPair c₁ c₂ [a, d] = false
      rw [hasPair_cons₂, if_neg (fun hc => hd hc.2), hasPair_single]
    | cons b r =>
      rw [hasPair_cons₂] at h
      by_cases hab : a = c₁ ∧ b = c₂
      · rw [if_pos hab] at h
        exact absurd h (by simp)
      · rw [if_neg hab] at h
        show hasPair c₁ c₂ (a :: b :: (r ++ [d])) = false
        rw [hasPair_cons₂, if_neg hab]
        exact ih h

theorem hasPair_quoteField (c₁ c₂ : Char) (h₁ : ('"' : Char) ≠ c₁) (h₂ : ('"' : Char) ≠ c₂)
    (x : Str) (h : hasPair c₁ c₂ x = false) : hasPair c₁ c₂ (quoteField x) = false := by
  unfold quoteField
  cases x with
  | nil =>
    show hasPair c₁ c₂ ['"', '"'] = false
    rw [hasPair_cons₂, if_neg (fun hc => h₁ hc.1), hasPair_single]
  | cons a x' =>
    show hasPair c₁ c₂ ('"' :: ((a :: x') ++ ['"'])) = false
    rw [List.cons_append, hasPair_cons₂, if_neg (fun hc => h₁ hc.1), ← List.cons_append]
    exact hasPair_concat_of c₁ c₂ '"' h₂ (a :: x') h

theorem isPrefixOf_pair_iff (c₁ c₂ x : Char) (rest : Str) :
    [c₁, c₂].isPrefixOf (x :: rest) = true ↔ x = c₁ ∧ rest.head? = some c₂ := by
  rw [List.isPrefixOf_iff_prefix, List.cons_prefix_cons]
  cases rest with
  | nil => simp [eq_comm]
  | cons y r =>
    rw [List.cons_prefix_cons]
    simp [eq_comm]

theorem firstSplit_cons (sep : Str) (c : Char) (rest : Str) :
    firstSplit sep (c :: rest) =
      if sep.isPrefixOf (c :: rest) then some ([], (c :: rest).drop sep.length)
      else (firstSplit sep rest).map (fun p => (c :: p.1, p.2)) := rfl

theorem firstSplit_none_of_hasPair (c₁ c₂ : Char) :
    ∀ s : Str, hasPair c₁ c₂ s = false → firstSplit [c₁, c₂] s = none := by
  intro s
  induction s with
  | nil => intro _; rfl
  | cons x rest ih =>
    intro h
    rw [firstSplit_cons]
    have hpre : ¬ ([c₁, c₂].isPrefixOf (x :: rest) = true) := by
      rw [isPrefixOf_pair_iff]
      rintro ⟨hx, hh⟩
      cases rest with
      | nil => simp at hh
      | cons y r =>
        have hy : y = c₂ := by simpa using hh
        rw [hasPair_cons₂, if_pos ⟨hx, hy⟩] at h
        exact absurd h (by simp)
    rw [if_neg hpre]
    have hrest : hasPair c₁ c₂ rest = false := by
      cases rest with
      | nil => rfl
      | cons y r =>
        rw [hasPair_cons₂] at h
        by_cases hc : x = c₁ ∧ y = c₂
        · rw [if_pos hc] at h
          exact absurd h (by simp)
        · rwa [if_neg hc] at h
    rw [ih hrest]
    rfl

theorem firstSplit_at_sep (c₁ c₂ : Char) :
    ∀ (a b : Str), hasPair c₁ c₂ a = false → a.getLast? ≠ some c₁ → a ≠ [] →
      firstSplit [c₁, c₂] (a ++ c₁ :: c₂ :: b) = some (a, b) := by
  intro a
  induction a with
  | nil => intro b _ _ hne; exact absurd rfl hne
  | cons x a' ih =>
    intro b hp hlast _
    rw [List.cons_append, firstSplit_cons]
    cases a' with
    | nil =>
      have hx : x ≠ c₁ := fun hc => hlast (by rw [hc]; rfl)
      have hpre : ¬ ([c₁, c₂].isPrefixOf (x :: ([] ++ c₁ :: c₂ :: b)) = true) := by
        rw [isPrefixOf_pair_iff]
        rintro ⟨hc, _⟩
        exact hx hc
      rw [if_neg hpre]
      have hinner : firstSplit [c₁, c₂] (c₁ :: c₂ :: b) = some ([], b) := by
        rw [firstSplit_cons,
          if_pos (by rw [isPrefixOf_pair_iff]; exact ⟨rfl, rfl⟩)]
        rfl
      show (firstSplit [c₁, c₂] ([] ++ c₁ :: c₂ :: b)).map (fun p => (x :: p.1, p.2))
          = some ([x], b)
      rw [List.nil_append, hinner]
      rfl
    | cons y a'' =>
      have hxy : ¬ (x = c₁ ∧ y = c₂) := by
        intro hc
        rw [hasPair_cons₂, if_pos hc] at hp
        exact absurd hp (by simp)
      have hpre : ¬ ([c₁, c₂].isPrefixOf (x :: ((y :: a'') ++ c₁ :: c₂ :: b)) = true) := by
        rw [isPrefixOf_pair_iff]
        rintro ⟨hc1, hc2⟩
        exact hxy ⟨hc1, by simpa using hc2⟩
      rw [if_neg hpre]
      have hp' : hasPair c₁ c₂ (y :: a'') = false := by
        rw [hasPair_cons₂] at hp
        rwa [if_neg hxy] at hp
      have hlast' : (y :: a'').getLast? ≠ some c₁ := by
        intro hc
        exact hlast (by rw [List.getLast?_cons_cons]; exact hc)
      rw [ih b hp' hlast' (by simp)]
      rfl

theorem firstSplit_length (sep : Str) (hsep : sep ≠ []) :
    ∀ (s a b : Str), firstSplit sep s = some (a, b) → b.length < s.length := by
  intro s
  induction s with
  | nil => intro a b h; exact absurd h (by simp [firstSplit])
  | cons c rest ih =>
    intro a b h
    rw [firstSplit_cons] at h
    by_cases hpre : sep.isPrefixOf (c :: rest) = true
    · rw [if_pos hpre] at h
      injection h with h
      obtain ⟨_, h2⟩ := Prod.mk.injEq _ _ _ _ ▸ h
      have hlen : 1 ≤ sep.length := by
        cases sep with
        | nil => exact absurd rfl hsep
        | cons _ _ => simp
      rw [← h2, List.length_drop]
      simp only [List.length_cons]
      omega
    · rw [if_neg hpre] at h
      cases hfs : firstSplit sep rest with
      | none => rw [hfs] at h; exact absurd h (by simp)
      | some p =>
        obtain ⟨a', b'⟩ := p
        rw [hfs] at h
        simp only [Option.map_some'] at h
        injection h with h
        obtain ⟨_, h2⟩ := Prod.mk.injEq _ _ _ _ ▸ h
        have := ih a' b' hfs
        rw [← h2]
        simp only [List.length_cons]
        omega

theorem splitOnSepAux_succ (sep : Str) (fuel : Nat) (s : Str) :
    splitOnSepAux sep (fuel + 1) s =
      match firstSplit sep s with
      | none => [s]
      | some (a, b) => a :: splitOnSepAux sep fuel b := rfl

theorem splitOnSepAux_mono (sep : Str) (hsep : sep ≠ []) :
    ∀ (f₁ : Nat) (s : Str) (f₂ : Nat), s.length < f₁ → s.length < f₂ →
      splitOnSepAux sep f₁ s = splitOnSepAux sep f₂ s := by
  intro f₁
  induction f₁ with
  | zero => intro s f₂ h1 _; omega
  | succ f ihf =>
    intro s f₂ h1 h2
    cases f₂ with
    | zero => omega
    | succ f₂' =>
      rw [splitOnSepAux_succ, splitOnSepAux_succ]
      cases hs : firstSplit sep s with
      | none => rfl
      | some p =>
        obtain ⟨a, b⟩ := p
        have hb := firstSplit_length sep hsep s a b hs
        show a :: splitOnSepAux sep f b = a :: splitOnSepAux sep f₂' b
        rw [ihf b f₂' (by omega) (by omega)]

theorem splitOnSep_unfold (sep : Str) (hsep : sep ≠ []) (s : Str) :
    splitOnSep sep s =
      match firstSplit sep s with
      | none => [s]
      | some (a, b) => a :: splitOnSep sep b := by
  show splitOnSepAux sep (s.length + 1) s = _
  rw [splitOnSepAux_succ]
  cases hs : firstSplit sep s with
  | none => rfl
  | some p =>
    obtain ⟨a, b⟩ := p
    have hb := firstSplit_length sep hsep s a b hs
    show a :: splitOnSepAux sep s.length b = a :: splitOnSep sep b
    exact congrArg (a :: ·)
      (splitOnSepAux_mono sep hsep s.length b (b.length + 1) (by omega) (by omega))

theorem interJoin_single (sep x : Str) : interJoin sep [x] = x := rfl

theorem interJoin_cons (sep x : Str) (l : List Str) (h : l ≠ []) :
    interJoin sep (x :: l) = x ++ sep ++ interJoin sep l := by
  cases l with
  | nil => exact absurd rfl h
  | cons y r => rfl

theorem quoteField_ne_nil (x : Str) : quoteField x ≠ [] := by simp [quoteField]

theorem quoteField_head? (x : Str) : (quoteField x).head? = some '"' := rfl

theorem quoteField_getLast? (x : Str) : (quoteField x).getLast? = some '"' := by
  show (('"' :: x) ++ ['"'] : Str).getLast? = some '"'
  exact List.getLast?_concat _

theorem interJoin_quoteField_last (cs : Str) :
    ∀ t : List Str, t ≠ [] → ∃ w, interJoin cs (t.map quoteField) = w ++ ['"'] := by
  intro t
  induction t with
  | nil => intro h; exact absurd rfl h
  | cons x t' ih =>
    intro _
    cases t' with
    | nil => exact ⟨'"' :: x, rfl⟩
    | cons y r =>
      obtain ⟨w, hw⟩ := ih (by simp)
      refine ⟨quoteField x ++ cs ++ w, ?_⟩
      rw [List.map_cons, interJoin_cons _ _ _ (by simp), hw]
      simp [List.append_assoc]

theorem rstripAll_closing (t : List Str) (hne : t ≠ []) (cs : Str) :
    rstripAll ')' (interJoin cs (t.map quoteField) ++ [')'])
      = interJoin cs (t.map quoteField) := by
  obtain ⟨w, hw⟩ := interJoin_quoteField_last cs t hne
  unfold rstripAll
  rw [List.rdropWhile_concat, if_pos (by decide), hw, List.rdropWhile_concat,
    if_neg (by decide)]

theorem splitFirstChar_cons (c x : Char) (rest : Str) :
    splitFirstChar c (x :: rest) =
      if x = c then some ([], rest)
      else (splitFirstChar c rest).map (fun p => (x :: p.1, p.2)) := rfl

theorem splitFirstChar_append (c : Char) :
    ∀ (a b : Str), c ∉ a → splitFirstChar c (a ++ c :: b) = some (a, b) := by
  intro a
  induction a with
  | nil =>
    intro b _
    rw [List.nil_append, splitFirstChar_cons, if_pos rfl]
  | cons x a' ih =>
    intro b hmem
    rw [List.cons_append, splitFirstChar_cons,
      if_neg (fun hc => hmem (by rw [hc]; exact List.mem_cons_self _ _)),
      ih b (fun hc => hmem (List.mem_cons_of_mem _ hc))]
    rfl

theorem pyStrip_quoteField (x : Str) : pyStrip (quoteField x) = quoteField x := by
  show (List.dropWhile isWS (quoteField x)).rdropWhile isWS = quoteField x
  rw [show quoteField x = '"' :: (x ++ ['"']) from rfl, List.dropWhile_cons,
    if_neg (by decide), show ('"' :: (x ++ ['"']) : Str) = ('"' :: x) ++ ['"'] from rfl,
    List.rdropWhile_concat, if_neg (by decide)]

theorem dropOuter_quoteField (x : Str) : dropOuter (quoteField x) = x := by
  show (x ++ ['"'] : Str).dropLast = x
  exact List.dropLast_concat

theorem splitOnSep_interJoin_quoteField :
    ∀ t : List Str, t ≠ [] → (∀ x ∈ t, hasPair ',' ' ' x = false) →
      splitOnSep [',', ' '] (interJoin [',', ' '] (t.map quoteField)) = t.map quoteField := by
  intro t
  induction t with
  | nil => intro h _; exact absurd rfl h
  | cons x t' ih =>
    intro _ hall
    have hx := hall x (List.mem_cons_self _ _)
    have hqx : hasPair ',' ' ' (quoteField x) = false :=
      hasPair_quoteField ',' ' ' (by decide) (by decide) x hx
    cases t' with
    | nil =>
      rw [List.map_cons, List.map_nil, interJoin_single,
        splitOnSep_unfold _ (by decide), firstSplit_none_of_hasPair ',' ' ' _ hqx]
    | cons y r =>
      rw [List.map_cons, interJoin_cons _ _ _ (by simp)]
      have hshape : quoteField x ++ [',', ' ']
            ++ interJoin [',', ' '] ((y :: r).map quoteField)
          = quoteField x ++ ',' :: ' ' :: interJoin [',', ' '] ((y :: r).map quoteField) := by
        rw [List.append_assoc]
        rfl
      have hfs := firstSplit_at_sep ',' ' ' (quoteField x)
        (interJoin [',', ' '] ((y :: r).map quoteField)) hqx
        (by rw [quoteField_getLast?]; simp) (quoteField_ne_nil x)
      rw [hshape, splitOnSep_unfold _ (by decide), hfs]
      show quoteField x :: splitOnSep [',', ' '] (interJoin [',', ' '] ((y :: r).map quoteField))
          = quoteField x :: (y :: r).map quoteField
      rw [ih (by simp) (fun z hz => hall z (List.mem_cons_of_mem _ hz))]

theorem map_invariant {α : Type} (f : α → α) :
    ∀ l : List α, (∀ x ∈ l, f x = x) → l.map f = l := by
  intro l
  induction l with
  | nil => intro _; rfl
  | cons a l ih =>
    intro h
    rw [List.map_cons, h a (List.mem_cons_self _ _),
      ih (fun x hx => h x (List.mem_cons_of_mem _ hx))]

theorem parseSouffleTuple_eq (s relName rest : Str)
    (h : splitFirstChar '(' s = some (relName, rest)) :
    parseSouffleTuple s = some (relName,
      ((splitOnSep (", ".data) (rstripAll ')' rest)).map pyStrip).map
        (fun x => if x.head? == some '"' && x.getLast? == some '"'
          then pyStrip (dropOuter x) else x)) := by
  unfold parseSouffleTuple
  rw [h]

/-- Counterexample for C5: the field `a, b` contains no quote character,
yet decoding its encoding does not give the tuple back (the comma-space
inside the field is taken for a separator). -/
theorem souffle_C5_counterexample :
    parseSouffleTuple (printSouffleTuple "r".data ["a, b".data])
      ≠ some ("r".data, ["a, b".data]) := by decide

/-- C5 as amended: decoding inverts encoding for relation names that
contain no `(` and non-empty tuples each of whose fields contains no
quote character, contains no comma-space sequence, and carries no leading
or trailing whitespace. -/
theorem souffle_C5_amended (name : Str) (t : List Str)
    (hn : '(' ∉ name) (hne : t ≠ [])
    (hf : ∀ x ∈ t, '"' ∉ x ∧ hasPair ',' ' ' x = false ∧ pyStrip x = x) :
    parseSouffleTuple (printSouffleTuple name t) = some (name, t) := by
  have hsplit : splitFirstChar '(' (printSouffleTuple name t)
      = some (name, interJoin (", ".data) (t.map quoteField) ++ [')']) := by
    unfold printSouffleTuple
    rw [List.append_assoc, List.cons_append]
    exact splitFirstChar_append '(' name _ hn
  rw [parseSouffleTuple_eq _ _ _ hsplit, rstripAll_closing t hne (", ".data),
    show (", ".data : Str) = [',', ' '] from rfl,
    splitOnSep_interJoin_quoteField t hne (fun x hx => (hf x hx).2.1),
    List.map_map, List.map_map]
  have hgood : ∀ x ∈ t,
      (((fun x : Str => if x.head? == some '"' && x.getLast? == some '"'
          then pyStrip (dropOuter x) else x) ∘ pyStrip) ∘ quoteField) x = x := by
    intro x hx
    show (if (pyStrip (quoteField x)).head? == some '"'
          && (pyStrip (quoteField x)).getLast? == some '"'
        then pyStrip (dropOuter (pyStrip (quoteField x))) else pyStrip (quoteField x)) = x
    rw [pyStrip_quoteField, quoteField_head?, quoteField_getLast?, if_pos (by decide),
      dropOuter_quoteField]
    exact (hf x hx).2.2
  rw [map_invariant _ t hgood]

/-- Witness for C5 (amended): the tuple `("a", "b")` with relation `r`
round-trips. -/
theorem souffle_C5_witness :
    parseSouffleTuple (printSouffleTuple "r".data ["a".data, "b".data])
      = some ("r".data, ["a".data, "b".data]) :=
  souffle_C5_amended "r".data ["a".data, "b".data] (by decide) (by decide) (by decide)
